import Mathlib

/-!
Shallow embedding of the dictionary core of `src/dictionary/main.js`.

Strings are modelled as `List Char`; JavaScript `toLowerCase` is modelled with
Lean's ASCII `Char.toLower` (the claims only involve ASCII data).  JavaScript
numbers that appear in scoring are modelled as rationals `ℚ`; array indices and
lengths as `ℕ`.  A JavaScript `Map` is modelled as an insertion-ordered
association list.  `Math.random()` draws are modelled by an oracle
`stream : ℕ → ℕ` giving the successive values of
`Math.floor(Math.random() * length)`, and the `while` loop of
`getMultipleRandomWords` is run on explicit fuel.
-/

/-- JS `toLowerCase`, modelled on the ASCII range (`Char.toLower`). -/
def lower (s : List Char) : List Char := s.map Char.toLower

/-- JS `String.prototype.trim`: drop surrounding whitespace. -/
def trim (s : List Char) : List Char :=
  ((s.dropWhile Char.isWhitespace).reverse.dropWhile Char.isWhitespace).reverse

/-- JS `s.includes(t)`: `t` occurs as a contiguous substring of `s`. -/
def includesB (s t : List Char) : Bool := decide (t <:+: s)

/-- Lexicographic comparison of char lists; models the `localeCompare`-based
comparator of `buildSearchIndexes` (`a < b`). -/
def lexLt : List Char → List Char → Bool
  | [], [] => false
  | [], _ :: _ => true
  | _ :: _, [] => false
  | a :: as, b :: bs => if a < b then true else if b < a then false else lexLt as bs

mutual
/-- Parsed JSON values, as handed to `parseJSON` (the core performs no I/O).
Arrays and objects carry their own list types so that all recursion over them
stays structural. -/
inductive JSON where
  | str : List Char → JSON
  | num : Int → JSON
  | bool : Bool → JSON
  | null : JSON
  | arr : JList → JSON
  | obj : JObj → JSON
/-- The elements of a JSON array. -/
inductive JList where
  | nil : JList
  | cons : JSON → JList → JList
/-- The key/value pairs of a JSON object, in insertion order. -/
inductive JObj where
  | nil : JObj
  | cons : List Char → JSON → JObj → JObj
end

/-- Array elements as an ordinary list. -/
def jlistToList : JList → List JSON
  | .nil => []
  | .cons v vs => v :: jlistToList vs

/-- Object key/value pairs as an ordinary list (JS `Object.entries`). -/
def jobjToList : JObj → List (List Char × JSON)
  | .nil => []
  | .cons k v rest => (k, v) :: jobjToList rest

/-- Build a JSON array from a list literal. -/
def jarr (vs : List JSON) : JSON := .arr (vs.foldr .cons .nil)

/-- Build a JSON object from a list literal. -/
def jobj (kvs : List (List Char × JSON)) : JSON := .obj (kvs.foldr (fun p o => .cons p.1 p.2 o) .nil)

/-- JS truthiness of a value (`entry && ...`, `word && definition`). -/
def jTruthy : JSON → Bool
  | .str s => !s.isEmpty
  | .num n => n != 0
  | .bool b => b
  | .null => false
  | .arr _ => true
  | .obj _ => true

/-- JS `typeof v === 'object'` (objects, arrays and `null`). -/
def jIsObjectType : JSON → Bool
  | .obj _ => true
  | .arr _ => true
  | .null => true
  | _ => false

/-- JS property access `v[k]`; `none` models `undefined`. -/
def jGet (j : JSON) (k : List Char) : Option JSON :=
  match j with
  | .obj kvs => ((jobjToList kvs).find? (fun p => decide (p.1 = k))).map (·.2)
  | _ => none

/-- Truthiness of a possibly-`undefined` value. -/
def jTruthyOpt : Option JSON → Bool
  | none => false
  | some v => jTruthy v

mutual
/-- JS `v.toString()`. -/
def jsToString : JSON → List Char
  | .str s => s
  | .num n => (toString n).toList
  | .bool b => if b then ("true").toList else ("false").toList
  | .null => ("null").toList
  | .arr vs => jsArrToString vs
  | .obj _ => ("[object Object]").toList
/-- JS `Array.prototype.toString`: elements joined by `,`, with `null`
rendered as the empty string. -/
def jsArrToString : JList → List Char
  | .nil => []
  | .cons v .nil => (match v with | .null => [] | v => jsToString v)
  | .cons v vs => (match v with | .null => [] | v => jsToString v) ++ ',' :: jsArrToString vs
end

/-- A normalized dictionary entry (`{ word, definition }`). -/
structure Entry where
  word : List Char
  definition : List Char
deriving DecidableEq, Repr

/-- A scored search result (`{ ...entry, score, matchType }`). -/
structure ScoredResult where
  word : List Char
  definition : List Char
  score : ℚ
  matchType : List Char
deriving DecidableEq, Repr

/-- The constant `matchType` value `'word'`. -/
def wordStr : List Char := ("word").toList

/-- The JSON key `'word'`. -/
def wordKey : List Char := ("word").toList

/-- The JSON key `'definition'`. -/
def definitionKey : List Char := ("definition").toList

/-- Build a `ScoredResult` from an entry and a score (`{...entry, score, matchType: 'word'}`). -/
def mkResult (e : Entry) (score : ℚ) : ScoredResult :=
  { word := e.word, definition := e.definition, score := score, matchType := wordStr }

/-- JS `Map.get` on an insertion-ordered association list. -/
def mapGet {K V : Type} [DecidableEq K] (m : List (K × V)) (k : K) : Option V :=
  (m.find? (fun p => decide (p.1 = k))).map (·.2)

/-- JS `Map.set`: update in place if the key is present, else append. -/
def mapSet {K V : Type} [DecidableEq K] (m : List (K × V)) (k : K) (v : V) : List (K × V) :=
  if m.any (fun p => decide (p.1 = k)) then
    m.map (fun p => if p.1 = k then (k, v) else p)
  else m ++ [(k, v)]

/-- The state of a `RandomDictionary` instance. -/
structure Store where
  words : List Entry
  isLoaded : Bool
  wordIndex : List (List Char × Entry × Nat)
  sortedWords : List Entry
deriving DecidableEq, Repr

/-- The constructor state: nothing loaded, empty indexes. -/
def emptyStore : Store := { words := [], isLoaded := false, wordIndex := [], sortedWords := [] }

/-- Stable insertion of `x` into `l`: `x` is placed before the first element
that does not strictly precede it, so elements comparing equal keep their
original relative order (JS `Array.prototype.sort` is stable). -/
def insertStable {α : Type} (lt : α → α → Bool) (x : α) : List α → List α
  | [] => [x]
  | y :: ys => if lt y x then y :: insertStable lt x ys else x :: y :: ys

/-- Stable sort by the strict precedence predicate `lt`; models JS
`Array.prototype.sort` with a consistent comparator (`lt a b` means the
comparator orders `a` strictly before `b`). -/
def stableSortBy {α : Type} (lt : α → α → Bool) : List α → List α
  | [] => []
  | x :: l => insertStable lt x (stableSortBy lt l)

/-- Comparator of `buildSearchIndexes`:
`a.word.toLowerCase().localeCompare(b.word.toLowerCase())`, modelled
lexicographically. -/
def entryLt (a b : Entry) : Bool := lexLt (lower a.word) (lower b.word)

/-- `wordIndex` built by `buildSearchIndexes`: for each entry (in order),
`wordIndex.set(entry.word.toLowerCase(), { entry, index })`. -/
def buildWordIndex (words : List Entry) : List (List Char × Entry × Nat) :=
  words.enum.foldl (fun m p => mapSet m (lower p.2.word) (p.2, p.1)) []

/-- `buildSearchIndexes`: rebuild `wordIndex` (from a cleared map) and
`sortedWords` from the current `words`. -/
def buildSearchIndexes (st : Store) : Store :=
  { st with
    wordIndex := buildWordIndex st.words
    sortedWords := stableSortBy entryLt st.words }

/-- Shape dispatch and filtering of `parseJSON`: array of objects with truthy
`word` and `definition` fields, or object of truthy key/value pairs; any other
shape is an error.  Values are coerced to string and trimmed. -/
def parseWords : JSON → Except String (List Entry)
  | .arr items =>
      .ok (((jlistToList items).filter (fun entry =>
              jTruthy entry && jIsObjectType entry &&
              jTruthyOpt (jGet entry wordKey) && jTruthyOpt (jGet entry definitionKey))).map
            (fun entry =>
              { word := trim (((jGet entry wordKey).map jsToString).getD [])
                definition := trim (((jGet entry definitionKey).map jsToString).getD []) }))
  | .obj kvs =>
      .ok (((jobjToList kvs).filter (fun p => !p.1.isEmpty && jTruthy p.2)).map
            (fun p => { word := trim p.1, definition := trim (jsToString p.2) }))
  | _ => .error "Invalid JSON format. Expected array of objects or object with word-definition pairs."

/-- `parseJSON`: assigns `this.words` from the parsed shape, then errors if no
valid entries remain, else builds the search indexes.  The returned pair is
the observable state after the call together with the thrown error, if any;
note that on the empty-dataset error `this.words` has already been mutated. -/
def parseJSON (st : Store) (j : JSON) : Store × Option String :=
  match parseWords j with
  | .error msg => (st, some msg)
  | .ok ws =>
      let st1 := { st with words := ws }
      if ws.length = 0 then (st1, some "No valid word entries found in JSON file.")
      else (buildSearchIndexes st1, none)

/-- `loadWords` applied to an already-deserialized dataset: on success marks
the store loaded; on error the error is surfaced and `isLoaded` is untouched. -/
def loadWords (st : Store) (j : JSON) : Store × Option String :=
  match parseJSON st j with
  | (st1, none) => ({ st1 with isLoaded := true }, none)
  | (st1, some msg) => (st1, some msg)

/-- `getRandomWord`, with the random draw `Math.floor(Math.random() * length)`
supplied as `idx`. -/
def getRandomWord (st : Store) (idx : Nat) : Option Entry :=
  if st.isLoaded = false ∨ st.words.length = 0 then none
  else st.words[idx]?

/-- The `while` loop of `getMultipleRandomWords`, drawing successive random
indices from `stream` and running on explicit `fuel` (`none` = fuel exhausted
before the loop finished).  `sel` is the `selectedIndices` set in insertion
order, `res` the accumulated result. -/
def drawLoop (words : List Entry) (stream : Nat → Nat) (maxCount : Nat) :
    Nat → Nat → List Nat → List Entry → Option (List Nat × List Entry)
  | 0, _, sel, res => if maxCount ≤ sel.length then some (sel, res) else none
  | fuel + 1, t, sel, res =>
      if maxCount ≤ sel.length then some (sel, res)
      else
        let randomIndex := stream t
        if randomIndex ∈ sel then drawLoop words stream maxCount fuel (t + 1) sel res
        else drawLoop words stream maxCount fuel (t + 1) (sel ++ [randomIndex])
          (res ++ [words.getD randomIndex { word := [], definition := [] }])

/-- `getMultipleRandomWords(count)`: returns the selected index list together
with the returned entries (the source returns only the entries; the index set
is the loop's `selectedIndices`). -/
def getMultipleRandomWords (st : Store) (stream : Nat → Nat) (count fuel : Nat) :
    Option (List Nat × List Entry) :=
  if st.isLoaded = false ∨ st.words.length = 0 then some ([], [])
  else drawLoop st.words stream (min count st.words.length) fuel 0 [] []

/-- `_editDistance`: Levenshtein distance; the source's dynamic-programming
table is modelled by the recurrence it tabulates. -/
def editDistance : List Char → List Char → Nat
  | [], ys => ys.length
  | x :: xs, [] => (x :: xs).length
  | x :: xs, y :: ys =>
      if x = y then editDistance xs ys
      else 1 + min (editDistance xs (y :: ys)) (min (editDistance (x :: xs) ys) (editDistance xs ys))
termination_by xs ys => xs.length + ys.length
decreasing_by all_goals simp_arith [List.length]

/-- The in-order character scan of `_fuzzyMatch`: every character of the
second list appears in the first, in order. -/
def subseqCheck : List Char → List Char → Bool
  | _, [] => true
  | [], _ :: _ => false
  | c :: cs, t :: ts => if c = t then subseqCheck cs ts else subseqCheck cs (t :: ts)

/-- `_fuzzyMatch(str, term)`: tiered score in `[0, 100]` (a JS number; the
edit-distance tier produces fractional values). -/
def fuzzyMatch (str term : List Char) : ℚ :=
  let strLower := lower str
  let termLower := lower term
  if strLower = termLower then 100
  else if includesB strLower termLower then 80
  else if termLower.length < ((strLower.length : Int) - (termLower.length : Int)).natAbs then 0
  else if subseqCheck strLower termLower then 60
  else if termLower.length ≤ 8 then
    let maxLength := max strLower.length termLower.length
    let editDist := editDistance strLower termLower
    let similarity := max 0 (((maxLength : ℚ) - (editDist : ℚ)) / (maxLength : ℚ) * 100)
    if 40 < similarity then similarity else 0
  else 0

/-- Comparator of `searchWords`' final sort, `(a, b) => b.score - a.score`:
`a` strictly precedes `b` iff `a.score > b.score`. -/
def scoreGt (a b : ScoredResult) : Bool := decide (b.score < a.score)

/-- One non-skipped iteration of the strategy-2 scan of `searchWords`:
classify the entry as a fast prefix match (score 90), a fast contains match
(score 80), or, when the term has at least 3 characters, defer it to the
expensive pool. -/
def scanStep (termLower searchTerm : List Char) (e : Entry)
    (fast : List (Entry × ℚ)) (expensive : List Entry) : List (Entry × ℚ) × List Entry :=
  let wordLower := lower e.word
  if termLower.isPrefixOf wordLower then (fast ++ [(e, (90 : ℚ))], expensive)
  else if includesB wordLower termLower then (fast ++ [(e, (80 : ℚ))], expensive)
  else if 3 ≤ searchTerm.length then (fast, expensive ++ [e])
  else (fast, expensive)

/-- Strategy-2 scan of `searchWords`: classify each entry (skipping the exact
match) via `scanStep`, and stop early once 500 (half the result cap) fast
matches have been collected. -/
def scanEntries (termLower searchTerm : List Char) :
    List Entry → List (Entry × ℚ) → List Entry → List (Entry × ℚ) × List Entry
  | [], fast, expensive => (fast, expensive)
  | e :: rest, fast, expensive =>
      if lower e.word = termLower then scanEntries termLower searchTerm rest fast expensive
      else
        let acc := scanStep termLower searchTerm e fast expensive
        if 500 ≤ acc.1.length then acc
        else scanEntries termLower searchTerm rest acc.1 acc.2

/-- Strategy-3 loop of `searchWords`: fuzzy-score each deferred candidate,
keep positive scores, stop once 1000 results have been accumulated. -/
def fuzzyLoop (searchTerm : List Char) : List Entry → List ScoredResult → List ScoredResult
  | [], results => results
  | e :: rest, results =>
      let wordScore := fuzzyMatch e.word searchTerm
      let results1 := if 0 < wordScore then results ++ [mkResult e wordScore] else results
      if 1000 ≤ results1.length then results1
      else fuzzyLoop searchTerm rest results1

/-- The exact-match results of strategy 1 (zero or one result of score 100). -/
def exactPart (st : Store) (termLower : List Char) : List ScoredResult :=
  match mapGet st.wordIndex termLower with
  | some p => [mkResult p.1 100]
  | none => []

/-- All results collected by `searchWords` before the final sort/truncation:
exact match, then fast matches, then (if fewer than 50 results and some
deferred candidates) fuzzy matches over at most 500 candidates. -/
def collectResults (st : Store) (searchTerm : List Char) : List ScoredResult :=
  let termLower := lower searchTerm
  let scanned := scanEntries termLower searchTerm st.words [] []
  let results1 := exactPart st termLower ++ scanned.1.map (fun p => mkResult p.1 p.2)
  if results1.length < 50 ∧ 0 < scanned.2.length then
    fuzzyLoop searchTerm (scanned.2.take 500) results1
  else results1

/-- `searchWords(searchTerm)`: fail closed when unloaded or the term is empty,
else sort the collected results by score descending (stable) and truncate to
1000. -/
def searchWords (st : Store) (searchTerm : List Char) : List ScoredResult :=
  if st.isLoaded = false ∨ searchTerm = [] then []
  else (stableSortBy scoreGt (collectResults st searchTerm)).take 1000

/-- The spec-side characterization of `wordIndex` lookups: the LAST entry of
the list (with its index) whose lowercased word equals the key, reflecting
the last-writer-wins `Map.set` in `buildSearchIndexes`. -/
def lastMatch (k : List Char) : List (Nat × Entry) → Option (Entry × Nat)
  | [] => none
  | p :: rest =>
      match lastMatch k rest with
      | some r => some r
      | none => if lower p.2.word = k then some (p.2, p.1) else none

/-- `CACHE_SIZE_LIMIT` of the live-search result cache. -/
def CACHE_SIZE_LIMIT : Nat := 50

/-- The cache write of `performLiveSearch`: if the cache has reached the
capacity, delete the first-inserted key (`keys().next().value`), then insert. -/
def cachePut (cap : Nat) (c : List (List Char × List ScoredResult)) (k : List Char)
    (v : List ScoredResult) : List (List Char × List ScoredResult) :=
  let c1 :=
    if cap ≤ c.length then
      match c.head? with
      | some p => c.eraseP (fun q => decide (q.1 = p.1))
      | none => c
    else c
  mapSet c1 k v

/-- Cache lookup (`cachedSearchResults.get`, with `has` = `isSome`). -/
def cacheGet (c : List (List Char × List ScoredResult)) (k : List Char) :
    Option (List ScoredResult) := mapGet c k

/-- Successive cache writes of a list of (query, results) pairs. -/
def putAll (cap : Nat) (c : List (List Char × List ScoredResult))
    (ps : List (List Char × List ScoredResult)) : List (List Char × List ScoredResult) :=
  ps.foldl (fun acc p => cachePut cap acc p.1 p.2) c

/-- A small concrete dataset of shape (a): `[{word: 'Ab', definition: 'a thing'}]`. -/
def dsW : JSON := jarr [jobj [(wordKey, JSON.str (("Ab").toList)),
  (definitionKey, JSON.str (("a thing").toList))]]

/-- The store obtained by loading `dsW` into a fresh store. -/
def stW : Store := (loadWords emptyStore dsW).1

/-- A dataset whose only word is whitespace, truthy before trimming:
`[{word: '  ', definition: 'x'}]`. -/
def dsWS : JSON := jarr [jobj [(wordKey, JSON.str (("  ").toList)),
  (definitionKey, JSON.str (("x").toList))]]

/-- First cache insertion used in the capacity experiment: key `'A'`. -/
def cacheP0 : List Char × List ScoredResult := ([Char.ofNat 65], [])

/-- Fifty further distinct single-character keys (`'B'`, `'C'`, ...). -/
def cacheRest : List (List Char × List ScoredResult) :=
  (List.range 50).map (fun n => ([Char.ofNat (66 + n)], []))

theorem charToNat_ofNat_valid (n : Nat) (h : n.isValidChar) : (Char.ofNat n).toNat = n := by
  rw [Char.ofNat, dif_pos h]
  rfl

theorem charToLower_toLower (c : Char) : c.toLower.toLower = c.toLower := by
  unfold Char.toLower
  by_cases h : 65 ≤ c.toNat ∧ c.toNat ≤ 90
  · rw [if_pos h]
    have hv : (c.toNat + 32).isValidChar := by
      constructor
      omega
    rw [charToNat_ofNat_valid _ hv]
    rw [if_neg (by omega)]
  · rw [if_neg h, if_neg h]

theorem lower_lower (s : List Char) : lower (lower s) = lower s := by
  simp only [lower, List.map_map]
  exact List.map_congr_left (fun c _ => charToLower_toLower c)

theorem lower_eq_nil {s : List Char} : lower s = [] ↔ s = [] := by
  simp [lower]

theorem lower_length (s : List Char) : (lower s).length = s.length := by
  simp [lower]

theorem dropWhile_dropWhile (p : α → Bool) (l : List α) :
    List.dropWhile p (List.dropWhile p l) = List.dropWhile p l := by
  induction l with
  | nil => rfl
  | cons a l ih =>
      by_cases h : p a
      · simp [List.dropWhile_cons, h, ih]
      · simp [List.dropWhile_cons, h]

theorem dropWhile_trim (s : List Char) :
    List.dropWhile Char.isWhitespace (trim s) = trim s := by
  unfold trim
  set d := List.dropWhile Char.isWhitespace s with hd
  set u := List.dropWhile Char.isWhitespace d.reverse with hu
  rcases hrev : u.reverse with _ | ⟨x, rest⟩
  · rfl
  · have hune : u ≠ [] := by
      intro h0
      rw [h0] at hrev
      exact List.noConfusion hrev
    have hdne : d ≠ [] := by
      intro h0
      apply hune
      rw [hu, h0]
      rfl
    have hx : x = d.head hdne := by
      have h1 : u.getLast? = d.reverse.getLast? := by
        obtain ⟨t, ht⟩ := List.dropWhile_suffix (l := d.reverse) Char.isWhitespace
        rw [← hu] at ht
        rw [← ht, List.getLast?_append, List.getLast?_eq_getLast _ hune]
        rfl
      have h2 : d.reverse.getLast? = d.head? := by
        rw [List.getLast?_eq_head?_reverse, List.reverse_reverse]
      have h3 : u.getLast? = some x := by
        rw [List.getLast?_eq_head?_reverse, hrev]
        rfl
      have h4 : d.head? = some (d.head hdne) := List.head?_eq_head hdne
      rw [h1, h2, h4] at h3
      exact (Option.some_inj.mp h3).symm
    have hpx : Char.isWhitespace x = false := by
      rw [hx]
      have := List.head_dropWhile_not Char.isWhitespace s (w := by rw [← hd]; exact hdne)
      simpa [← hd] using this
    simp [List.dropWhile_cons, hpx]

theorem trim_trim (s : List Char) : trim (trim s) = trim s := by
  have h2 : (trim s).reverse =
      List.dropWhile Char.isWhitespace (List.dropWhile Char.isWhitespace s).reverse := by
    unfold trim
    rw [List.reverse_reverse]
  have h3 : List.dropWhile Char.isWhitespace (trim s).reverse = (trim s).reverse := by
    rw [h2, dropWhile_dropWhile]
  calc trim (trim s)
      = (((trim s).dropWhile Char.isWhitespace).reverse.dropWhile Char.isWhitespace).reverse := rfl
    _ = trim s := by rw [dropWhile_trim, h3, List.reverse_reverse]


theorem mem_insertStable {α : Type} (lt : α → α → Bool) (x : α) (l : List α) (a : α) :
    a ∈ insertStable lt x l ↔ a = x ∨ a ∈ l := by
  induction l with
  | nil => simp [insertStable]
  | cons y ys ih =>
      by_cases h : lt y x
      · simp [insertStable, h, ih]
        tauto
      · simp [insertStable, h]

theorem perm_insertStable {α : Type} (lt : α → α → Bool) (x : α) (l : List α) :
    (insertStable lt x l).Perm (x :: l) := by
  induction l with
  | nil => simp [insertStable]
  | cons y ys ih =>
      by_cases h : lt y x
      · simp only [insertStable, h, if_true]
        exact (ih.cons y).trans (List.Perm.swap x y ys)
      · simp [insertStable, h]

theorem perm_stableSortBy {α : Type} (lt : α → α → Bool) (l : List α) :
    (stableSortBy lt l).Perm l := by
  induction l with
  | nil => simp [stableSortBy]
  | cons x l ih =>
      exact (perm_insertStable lt x (stableSortBy lt l)).trans (ih.cons x)

theorem scoreGt_true {a b : ScoredResult} (h : scoreGt a b = true) : b.score < a.score := by
  simpa [scoreGt] using h

theorem scoreGt_false {a b : ScoredResult} (h : ¬ scoreGt a b = true) : a.score ≤ b.score := by
  simp only [scoreGt, decide_eq_true_eq] at h
  exact le_of_not_lt h

theorem pairwise_insertStable (x : ScoredResult) (l : List ScoredResult)
    (hl : l.Pairwise (fun a b => b.score ≤ a.score)) :
    (insertStable scoreGt x l).Pairwise (fun a b => b.score ≤ a.score) := by
  induction l with
  | nil => simp [insertStable]
  | cons y ys ih =>
      rcases List.pairwise_cons.mp hl with ⟨hy, hys⟩
      by_cases h : scoreGt y x
      · have hxy : x.score < y.score := scoreGt_true h
        simp only [insertStable, h, if_true]
        refine List.pairwise_cons.mpr ⟨?_, ih hys⟩
        intro a ha
        rcases (mem_insertStable scoreGt x ys a).mp ha with rfl | ha
        · exact le_of_lt hxy
        · exact hy a ha
      · have hyx : y.score ≤ x.score := scoreGt_false h
        simp only [insertStable, h, if_false]
        refine List.pairwise_cons.mpr ⟨?_, hl⟩
        intro a ha
        rcases List.mem_cons.mp ha with rfl | ha2
        · exact hyx
        · exact le_trans (hy a ha2) hyx

theorem sorted_stableSortBy (l : List ScoredResult) :
    (stableSortBy scoreGt l).Pairwise (fun a b => b.score ≤ a.score) := by
  induction l with
  | nil => simp [stableSortBy]
  | cons x l ih => exact pairwise_insertStable x _ ih

theorem insertStable_filter_score (x : ScoredResult) (l : List ScoredResult) (s : ℚ) :
    (insertStable scoreGt x l).filter (fun r => decide (r.score = s)) =
      if x.score = s then x :: l.filter (fun r => decide (r.score = s))
      else l.filter (fun r => decide (r.score = s)) := by
  induction l with
  | nil =>
      by_cases h : x.score = s <;> simp [insertStable, List.filter, h]
  | cons y ys ih =>
      by_cases h : scoreGt y x
      · have hxy : x.score < y.score := scoreGt_true h
        simp only [insertStable, h, if_true, List.filter_cons, ih]
        by_cases hy : y.score = s
        · have hx : ¬ x.score = s := by
            intro hx
            rw [hx, hy] at hxy
            exact lt_irrefl s hxy
          simp [hy, hx]
        · by_cases hx : x.score = s <;> simp [hy, hx]
      · by_cases hx : x.score = s <;>
          simp [insertStable, h, List.filter_cons, hx]

theorem stableSortBy_filter_score (l : List ScoredResult) (s : ℚ) :
    (stableSortBy scoreGt l).filter (fun r => decide (r.score = s)) =
      l.filter (fun r => decide (r.score = s)) := by
  induction l with
  | nil => simp [stableSortBy]
  | cons x l ih =>
      show (insertStable scoreGt x (stableSortBy scoreGt l)).filter _ = _
      rw [insertStable_filter_score, ih]
      by_cases hx : x.score = s <;> simp [List.filter_cons, hx]

theorem insertStable_eq_cons (x : ScoredResult) (l : List ScoredResult)
    (h : ∀ y ∈ l, ¬ x.score < y.score) : insertStable scoreGt x l = x :: l := by
  cases l with
  | nil => rfl
  | cons y ys =>
      have hy : scoreGt y x = false := by
        simp [scoreGt, h y (List.mem_cons_self y ys)]
      simp [insertStable, hy]

theorem mapGet_nil {K V : Type} [DecidableEq K] (k : K) :
    mapGet ([] : List (K × V)) k = none := rfl

theorem mapGet_cons {K V : Type} [DecidableEq K] (p : K × V) (m : List (K × V)) (k : K) :
    mapGet (p :: m) k = if p.1 = k then some p.2 else mapGet m k := by
  simp only [mapGet, List.find?_cons]
  by_cases h : p.1 = k <;> simp [h]

theorem mapGet_map_irrel {K V : Type} [DecidableEq K] (m : List (K × V)) (a k : K) (v : V)
    (hk : k ≠ a) :
    mapGet (m.map (fun p => if p.1 = a then (a, v) else p)) k = mapGet m k := by
  induction m with
  | nil => rfl
  | cons p rest ih =>
      rw [List.map_cons]
      by_cases hp : p.1 = a
      · rw [if_pos hp, mapGet_cons, mapGet_cons]
        rw [if_neg (fun h => hk h.symm), if_neg (fun h => hk (hp ▸ h).symm)]
        exact ih
      · rw [if_neg hp, mapGet_cons, mapGet_cons]
        by_cases hpk : p.1 = k
        · rw [if_pos hpk, if_pos hpk]
        · rw [if_neg hpk, if_neg hpk]
          exact ih

theorem mapGet_map_self {K V : Type} [DecidableEq K] (m : List (K × V)) (a : K) (v : V)
    (h : m.any (fun p => decide (p.1 = a)) = true) :
    mapGet (m.map (fun p => if p.1 = a then (a, v) else p)) a = some v := by
  induction m with
  | nil => simp at h
  | cons p rest ih =>
      rw [List.map_cons]
      by_cases hp : p.1 = a
      · rw [if_pos hp, mapGet_cons, if_pos rfl]
      · have h2 : rest.any (fun p => decide (p.1 = a)) = true := by
          simpa [List.any_cons, hp] using h
        rw [if_neg hp, mapGet_cons, if_neg hp]
        exact ih h2

theorem mapGet_mapSet {K V : Type} [DecidableEq K] (m : List (K × V)) (a k : K) (v : V) :
    mapGet (mapSet m a v) k = if k = a then some v else mapGet m k := by
  unfold mapSet
  by_cases h : m.any (fun p => decide (p.1 = a))
  · rw [if_pos h]
    by_cases hk : k = a
    · rw [if_pos hk, hk]
      exact mapGet_map_self m a v h
    · rw [if_neg hk]
      exact mapGet_map_irrel m a k v hk
  · rw [if_neg h]
    unfold mapGet
    rw [List.find?_append]
    by_cases hk : k = a
    · subst hk
      have hnone : m.find? (fun p => decide (p.1 = k)) = none :=
        List.find?_eq_none.mpr (fun x hx hxk => h (List.any_eq_true.mpr ⟨x, hx, hxk⟩))
      rw [hnone, if_pos rfl]
      simp [List.find?_cons]
    · have h1 : List.find? (fun p => decide (p.1 = k)) [(a, v)] = none := by
        have : ¬ (a = k) := fun h2 => hk h2.symm
        simp [List.find?_cons, this]
      rw [h1, if_neg hk, Option.or_none]

theorem mapGet_eq_none {K V : Type} [DecidableEq K] (m : List (K × V)) (k : K)
    (h : ∀ p ∈ m, p.1 ≠ k) : mapGet m k = none := by
  unfold mapGet
  rw [List.find?_eq_none.mpr]
  · rfl
  · intro p hp
    simp [h p hp]

theorem mapGet_of_nodup {K V : Type} [DecidableEq K] (m : List (K × V))
    (hnd : (m.map Prod.fst).Nodup) (p : K × V) (hp : p ∈ m) : mapGet m p.1 = some p.2 := by
  induction m with
  | nil => cases hp
  | cons q rest ih =>
      rcases List.pairwise_cons.mp hnd with ⟨hq, hrest⟩
      rw [mapGet_cons]
      rcases List.mem_cons.mp hp with rfl | hp2
      · rw [if_pos rfl]
      · have hqp : ¬ (q.1 = p.1) := fun hh => hq p.1 (List.mem_map.mpr ⟨p, hp2, rfl⟩) hh
        rw [if_neg hqp]
        exact ih hrest hp2

theorem editDistance_eq_zero : ∀ {xs ys : List Char}, editDistance xs ys = 0 → xs = ys := by
  intro xs
  induction xs with
  | nil =>
      intro ys h
      cases ys with
      | nil => rfl
      | cons y ys => simp [editDistance] at h
  | cons x xs ih =>
      intro ys h
      cases ys with
      | nil => simp [editDistance] at h
      | cons y ys =>
          by_cases hxy : x = y
          · rw [editDistance, if_pos hxy] at h
            rw [hxy, ih h]
          · rw [editDistance, if_neg hxy] at h
            omega

theorem editDistance_pos {xs ys : List Char} (h : xs ≠ ys) : 0 < editDistance xs ys :=
  Nat.pos_of_ne_zero (fun h0 => h (editDistance_eq_zero h0))


theorem simil_nonneg (M d : Nat) : (0 : ℚ) ≤ 0 ⊔ ((M : ℚ) - (d : ℚ)) / (M : ℚ) * 100 :=
  le_max_left 0 _

theorem simil_le_100 (M d : Nat) : (0 : ℚ) ⊔ ((M : ℚ) - (d : ℚ)) / (M : ℚ) * 100 ≤ 100 := by
  refine max_le (by norm_num) ?_
  rcases Nat.eq_zero_or_pos M with h0 | hpos
  · subst h0
    norm_num
  · have hM : (0 : ℚ) < (M : ℚ) := by exact_mod_cast hpos
    have hd : (0 : ℚ) ≤ (d : ℚ) := Nat.cast_nonneg _
    have hr : ((M : ℚ) - (d : ℚ)) / (M : ℚ) ≤ 1 := by
      rw [div_le_one hM]
      linarith
    calc ((M : ℚ) - (d : ℚ)) / (M : ℚ) * 100 ≤ 1 * 100 :=
          mul_le_mul_of_nonneg_right hr (by norm_num)
      _ = 100 := by norm_num

theorem simil_lt_100 (M d : Nat) (hM : 0 < M) (hd : 0 < d) :
    (0 : ℚ) ⊔ ((M : ℚ) - (d : ℚ)) / (M : ℚ) * 100 < 100 := by
  refine max_lt (by norm_num) ?_
  have hMq : (0 : ℚ) < (M : ℚ) := by exact_mod_cast hM
  have hdq : (1 : ℚ) ≤ (d : ℚ) := by exact_mod_cast hd
  have hr : ((M : ℚ) - (d : ℚ)) / (M : ℚ) < 1 := by
    rw [div_lt_one hMq]
    linarith
  calc ((M : ℚ) - (d : ℚ)) / (M : ℚ) * 100 < 1 * 100 :=
        mul_lt_mul_of_pos_right hr (by norm_num)
    _ = 100 := by norm_num

theorem fuzzyMatch_nonneg (str term : List Char) : 0 ≤ fuzzyMatch str term := by
  simp only [fuzzyMatch]
  split_ifs with h1 h2 h3 h4 h5 h6
  · norm_num
  · norm_num
  · norm_num
  · norm_num
  · exact simil_nonneg _ _
  · norm_num
  · norm_num

theorem fuzzyMatch_le_100 (str term : List Char) : fuzzyMatch str term ≤ 100 := by
  simp only [fuzzyMatch]
  split_ifs with h1 h2 h3 h4 h5 h6
  · norm_num
  · norm_num
  · norm_num
  · norm_num
  · exact simil_le_100 _ _
  · norm_num
  · norm_num

theorem fuzzyMatch_lt_100 {str term : List Char} (h : lower str ≠ lower term) :
    fuzzyMatch str term < 100 := by
  have hd : 0 < editDistance (lower str) (lower term) := editDistance_pos h
  have hpos : 0 < max (lower str).length (lower term).length := by
    rcases Nat.eq_zero_or_pos (max (lower str).length (lower term).length) with h0 | hp
    · exfalso
      have hs : (lower str).length = 0 := by omega
      have ht : (lower term).length = 0 := by omega
      exact h ((List.length_eq_zero.mp hs).trans (List.length_eq_zero.mp ht).symm)
    · exact hp
  simp only [fuzzyMatch]
  rw [if_neg h]
  split_ifs with h2 h3 h4 h5 h6
  · norm_num
  · norm_num
  · norm_num
  · exact simil_lt_100 _ _ hpos hd
  · norm_num
  · norm_num

theorem scanStep_fst_mem {termLower searchTerm : List Char} {e : Entry}
    {fast : List (Entry × ℚ)} {expensive : List Entry} {p : Entry × ℚ}
    (hp : p ∈ (scanStep termLower searchTerm e fast expensive).1) :
    p ∈ fast ∨ p = (e, (90 : ℚ)) ∨ p = (e, (80 : ℚ)) := by
  simp only [scanStep] at hp
  by_cases h1 : termLower.isPrefixOf (lower e.word) = true
  · rw [if_pos h1] at hp
    rcases List.mem_append.mp hp with h | h
    · exact Or.inl h
    · exact Or.inr (Or.inl (List.mem_singleton.mp h))
  · rw [if_neg h1] at hp
    by_cases h2 : includesB (lower e.word) termLower = true
    · rw [if_pos h2] at hp
      rcases List.mem_append.mp hp with h | h
      · exact Or.inl h
      · exact Or.inr (Or.inr (List.mem_singleton.mp h))
    · rw [if_neg h2] at hp
      by_cases h3 : 3 ≤ searchTerm.length
      · rw [if_pos h3] at hp
        exact Or.inl hp
      · rw [if_neg h3] at hp
        exact Or.inl hp

theorem scanStep_snd_mem {termLower searchTerm : List Char} {e : Entry}
    {fast : List (Entry × ℚ)} {expensive : List Entry} {x : Entry}
    (hx : x ∈ (scanStep termLower searchTerm e fast expensive).2) :
    x ∈ expensive ∨ x = e := by
  simp only [scanStep] at hx
  by_cases h1 : termLower.isPrefixOf (lower e.word) = true
  · rw [if_pos h1] at hx
    exact Or.inl hx
  · rw [if_neg h1] at hx
    by_cases h2 : includesB (lower e.word) termLower = true
    · rw [if_pos h2] at hx
      exact Or.inl hx
    · rw [if_neg h2] at hx
      by_cases h3 : 3 ≤ searchTerm.length
      · rw [if_pos h3] at hx
        rcases List.mem_append.mp hx with h | h
        · exact Or.inl h
        · exact Or.inr (List.mem_singleton.mp h)
      · rw [if_neg h3] at hx
        exact Or.inl hx

theorem scanEntries_spec (termLower searchTerm : List Char) (l : List Entry) :
    ∀ (fast : List (Entry × ℚ)) (expensive : List Entry),
      (∀ p ∈ fast, (p.2 = 90 ∨ p.2 = 80) ∧ lower p.1.word ≠ termLower) →
      (∀ x ∈ expensive, lower x.word ≠ termLower) →
      (∀ p ∈ (scanEntries termLower searchTerm l fast expensive).1,
          (p.2 = 90 ∨ p.2 = 80) ∧ lower p.1.word ≠ termLower) ∧
      (∀ x ∈ (scanEntries termLower searchTerm l fast expensive).2,
          lower x.word ≠ termLower) := by
  induction l with
  | nil =>
      intro fast expensive hf he
      exact ⟨hf, he⟩
  | cons e rest ih =>
      intro fast expensive hf he
      by_cases hskip : lower e.word = termLower
      · simp only [scanEntries, hskip, if_true]
        exact ih fast expensive hf he
      · have hf' : ∀ p ∈ (scanStep termLower searchTerm e fast expensive).1,
            (p.2 = 90 ∨ p.2 = 80) ∧ lower p.1.word ≠ termLower := by
          intro p hp
          rcases scanStep_fst_mem hp with h | h | h
          · exact hf p h
          · subst h
            exact ⟨Or.inl rfl, hskip⟩
          · subst h
            exact ⟨Or.inr rfl, hskip⟩
        have he' : ∀ x ∈ (scanStep termLower searchTerm e fast expensive).2,
            lower x.word ≠ termLower := by
          intro x hx
          rcases scanStep_snd_mem hx with h | h
          · exact he x h
          · subst h
            exact hskip
        simp only [scanEntries, hskip, if_false]
        by_cases hbreak : 500 ≤ (scanStep termLower searchTerm e fast expensive).1.length
        · rw [if_pos hbreak]
          exact ⟨hf', he'⟩
        · rw [if_neg hbreak]
          exact ih _ _ hf' he'

theorem fuzzyLoop_spec (searchTerm : List Char) (l : List Entry) :
    ∀ rs : List ScoredResult,
      ∃ adds, fuzzyLoop searchTerm l rs = rs ++ adds ∧
        ∀ r ∈ adds, ∃ e ∈ l, r = mkResult e (fuzzyMatch e.word searchTerm) ∧
          0 < fuzzyMatch e.word searchTerm := by
  induction l with
  | nil =>
      intro rs
      exact ⟨[], by simp [fuzzyLoop], by simp⟩
  | cons e rest ih =>
      intro rs
      simp only [fuzzyLoop]
      by_cases hscore : 0 < fuzzyMatch e.word searchTerm
      · rw [if_pos hscore]
        by_cases hbreak : 1000 ≤ (rs ++ [mkResult e (fuzzyMatch e.word searchTerm)]).length
        · rw [if_pos hbreak]
          refine ⟨[mkResult e (fuzzyMatch e.word searchTerm)], rfl, ?_⟩
          intro r hr
          rcases List.mem_singleton.mp hr with rfl
          exact ⟨e, List.mem_cons_self e rest, rfl, hscore⟩
        · rw [if_neg hbreak]
          obtain ⟨adds, heq, hadds⟩ := ih (rs ++ [mkResult e (fuzzyMatch e.word searchTerm)])
          refine ⟨mkResult e (fuzzyMatch e.word searchTerm) :: adds, ?_, ?_⟩
          · rw [heq, List.append_assoc]
            rfl
          · intro r hr
            rcases List.mem_cons.mp hr with rfl | hr2
            · exact ⟨e, List.mem_cons_self e rest, rfl, hscore⟩
            · obtain ⟨e2, he2, hre, hpos⟩ := hadds r hr2
              exact ⟨e2, List.mem_cons_of_mem e he2, hre, hpos⟩
      · rw [if_neg hscore]
        by_cases hbreak : 1000 ≤ rs.length
        · rw [if_pos hbreak]
          exact ⟨[], by simp, by simp⟩
        · rw [if_neg hbreak]
          obtain ⟨adds, heq, hadds⟩ := ih rs
          refine ⟨adds, heq, ?_⟩
          intro r hr
          obtain ⟨e2, he2, hre, hpos⟩ := hadds r hr
          exact ⟨e2, List.mem_cons_of_mem e he2, hre, hpos⟩

theorem exactPart_spec (st : Store) (tl : List Char) :
    ∀ r ∈ exactPart st tl, r.score = 100 ∧
      ∃ p, mapGet st.wordIndex tl = some p ∧ r = mkResult p.1 100 := by
  intro r hr
  unfold exactPart at hr
  cases h : mapGet st.wordIndex tl with
  | none =>
      rw [h] at hr
      cases hr
  | some p =>
      rw [h] at hr
      rcases List.mem_singleton.mp hr with rfl
      exact ⟨rfl, p, rfl, rfl⟩

theorem collectResults_decomp (st : Store) (q : List Char) :
    ∃ rest, collectResults st q = exactPart st (lower q) ++ rest ∧
      ∀ r ∈ rest, (r.score = 90 ∨ r.score = 80) ∨
        ∃ e, lower e.word ≠ lower q ∧ r = mkResult e (fuzzyMatch e.word q) := by
  have hscan := scanEntries_spec (lower q) q st.words [] []
    (by intro p hp; cases hp) (by intro x hx; cases hx)
  simp only [collectResults]
  by_cases hfz : (exactPart st (lower q) ++
      (scanEntries (lower q) q st.words [] []).1.map (fun p => mkResult p.1 p.2)).length < 50 ∧
      0 < (scanEntries (lower q) q st.words [] []).2.length
  · rw [if_pos hfz]
    obtain ⟨adds, heq, hadds⟩ :=
      fuzzyLoop_spec q ((scanEntries (lower q) q st.words [] []).2.take 500)
        (exactPart st (lower q) ++
          (scanEntries (lower q) q st.words [] []).1.map (fun p => mkResult p.1 p.2))
    refine ⟨(scanEntries (lower q) q st.words [] []).1.map (fun p => mkResult p.1 p.2) ++ adds,
      by rw [heq, List.append_assoc], ?_⟩
    intro r hr
    rcases List.mem_append.mp hr with hr1 | hr2
    · obtain ⟨p, hp, hpr⟩ := List.mem_map.mp hr1
      left
      have := (hscan.1 p hp).1
      rw [← hpr]
      simpa [mkResult] using this
    · obtain ⟨e, he, hre, _⟩ := hadds r hr2
      right
      have he2 : e ∈ (scanEntries (lower q) q st.words [] []).2 :=
        List.take_subset 500 _ he
      exact ⟨e, hscan.2 e he2, hre⟩
  · rw [if_neg hfz]
    refine ⟨(scanEntries (lower q) q st.words [] []).1.map (fun p => mkResult p.1 p.2), rfl, ?_⟩
    intro r hr
    obtain ⟨p, hp, hpr⟩ := List.mem_map.mp hr
    left
    have := (hscan.1 p hp).1
    rw [← hpr]
    simpa [mkResult] using this

theorem searchWords_eq_of_ready {st : Store} {q : List Char}
    (h1 : st.isLoaded = true) (h2 : q ≠ []) :
    searchWords st q = (stableSortBy scoreGt (collectResults st q)).take 1000 := by
  unfold searchWords
  rw [if_neg]
  rintro (h | h)
  · rw [h1] at h
    cases h
  · exact h2 h

theorem loadWords_success {st : Store} {j : JSON} {st' : Store}
    (h : loadWords st j = (st', none)) :
    st'.isLoaded = true ∧ st'.wordIndex = buildWordIndex st'.words ∧
      st'.sortedWords = stableSortBy entryLt st'.words ∧
      parseWords j = .ok st'.words ∧ st'.words ≠ [] := by
  unfold loadWords parseJSON at h
  cases hp : parseWords j with
  | error msg =>
      rw [hp] at h
      dsimp only at h
      simp at h
  | ok ws =>
      rw [hp] at h
      dsimp only at h
      by_cases hlen : ws.length = 0
      · rw [if_pos hlen] at h
        dsimp only at h
        simp at h
      · rw [if_neg hlen] at h
        dsimp only [buildSearchIndexes] at h
        simp only [Prod.mk.injEq] at h
        obtain ⟨hst, -⟩ := h
        subst hst
        refine ⟨rfl, rfl, rfl, rfl, ?_⟩
        intro hnil
        dsimp only at hnil
        rw [hnil] at hlen
        exact hlen rfl

theorem loadWords_failure {st : Store} {j : JSON} {st' : Store} {msg : String}
    (h : loadWords st j = (st', some msg)) :
    st'.wordIndex = st.wordIndex ∧ st'.sortedWords = st.sortedWords ∧
      st'.isLoaded = st.isLoaded ∧ (st'.words = st.words ∨ st'.words = []) := by
  unfold loadWords parseJSON at h
  cases hp : parseWords j with
  | error m =>
      rw [hp] at h
      dsimp only at h
      simp only [Prod.mk.injEq] at h
      obtain ⟨hst, -⟩ := h
      subst hst
      exact ⟨rfl, rfl, rfl, Or.inl rfl⟩
  | ok ws =>
      rw [hp] at h
      dsimp only at h
      by_cases hlen : ws.length = 0
      · rw [if_pos hlen] at h
        dsimp only at h
        simp only [Prod.mk.injEq] at h
        obtain ⟨hst, -⟩ := h
        subst hst
        refine ⟨rfl, rfl, rfl, Or.inr ?_⟩
        simpa using List.length_eq_zero.mp hlen
      · rw [if_neg hlen] at h
        dsimp only at h
        simp at h

theorem parseWords_trimmed {j : JSON} {ws : List Entry} (h : parseWords j = .ok ws) :
    ∀ e ∈ ws, (∃ a, e.word = trim a) ∧ ∃ b, e.definition = trim b := by
  cases j with
  | arr items =>
      simp only [parseWords, Except.ok.injEq] at h
      subst h
      intro e he
      obtain ⟨x, hx, hxe⟩ := List.mem_map.mp he
      exact ⟨⟨_, by rw [← hxe]⟩, ⟨_, by rw [← hxe]⟩⟩
  | obj kvs =>
      simp only [parseWords, Except.ok.injEq] at h
      subst h
      intro e he
      obtain ⟨x, hx, hxe⟩ := List.mem_map.mp he
      exact ⟨⟨_, by rw [← hxe]⟩, ⟨_, by rw [← hxe]⟩⟩
  | str s => simp [parseWords] at h
  | num n => simp [parseWords] at h
  | bool b => simp [parseWords] at h
  | null => simp [parseWords] at h

theorem foldl_mapSet_eq_lastMatch (k : List Char) (l : List (Nat × Entry)) :
    ∀ m : List (List Char × Entry × Nat),
      mapGet (l.foldl (fun m p => mapSet m (lower p.2.word) (p.2, p.1)) m) k =
        match lastMatch k l with
        | some r => some r
        | none => mapGet m k := by
  induction l with
  | nil =>
      intro m
      rfl
  | cons p rest ih =>
      intro m
      rw [List.foldl_cons, ih]
      cases hr : lastMatch k rest with
      | some r => simp [lastMatch, hr]
      | none =>
          simp only [lastMatch, hr]
          rw [mapGet_mapSet]
          by_cases hk : k = lower p.2.word
          · rw [if_pos hk, if_pos hk.symm]
          · rw [if_neg hk, if_neg (fun h => hk h.symm)]

theorem mapGet_buildWordIndex (words : List Entry) (k : List Char) :
    mapGet (buildWordIndex words) k = lastMatch k words.enum := by
  unfold buildWordIndex
  rw [foldl_mapSet_eq_lastMatch]
  cases lastMatch k words.enum <;> rfl

theorem lastMatch_of_mem {k : List Char} {l : List (Nat × Entry)}
    (h : ∃ p ∈ l, lower p.2.word = k) : ∃ r, lastMatch k l = some r := by
  induction l with
  | nil =>
      obtain ⟨p, hp, -⟩ := h
      cases hp
  | cons p rest ih =>
      cases hr : lastMatch k rest with
      | some r => exact ⟨r, by simp [lastMatch, hr]⟩
      | none =>
          obtain ⟨q, hq, hqk⟩ := h
          rcases List.mem_cons.mp hq with rfl | hq2
          · exact ⟨(q.2, q.1), by simp [lastMatch, hr, hqk]⟩
          · obtain ⟨r, hr2⟩ := ih ⟨q, hq2, hqk⟩
            rw [hr2] at hr
            cases hr

theorem lastMatch_some_prop {k : List Char} {l : List (Nat × Entry)} {e : Entry} {i : Nat}
    (h : lastMatch k l = some (e, i)) : (i, e) ∈ l ∧ lower e.word = k := by
  induction l with
  | nil => cases h
  | cons p rest ih =>
      simp only [lastMatch] at h
      cases hr : lastMatch k rest with
      | some r =>
          rw [hr] at h
          dsimp only at h
          have hre : r = (e, i) := Option.some_inj.mp h
          subst hre
          have := ih hr
          exact ⟨List.mem_cons_of_mem p this.1, this.2⟩
      | none =>
          rw [hr] at h
          dsimp only at h
          by_cases hk : lower p.2.word = k
          · rw [if_pos hk] at h
            obtain ⟨he, hi⟩ := Prod.mk.injEq .. ▸ Option.some_inj.mp h
            refine ⟨?_, by rw [← he]; exact hk⟩
            rw [← he, ← hi]
            exact List.mem_cons_self p rest
          · rw [if_neg hk] at h
            cases h

theorem drawLoop_spec (words : List Entry) (stream : Nat → Nat) (maxCount : Nat) :
    ∀ (fuel t : Nat) (sel : List Nat) (res : List Entry) (sel' : List Nat) (res' : List Entry),
      sel.Nodup →
      res = sel.map (fun i => words.getD i { word := [], definition := [] }) →
      sel.length ≤ maxCount →
      (∀ i ∈ sel, i < words.length) →
      (∀ t', stream t' < words.length) →
      drawLoop words stream maxCount fuel t sel res = some (sel', res') →
      sel'.Nodup ∧
        res' = sel'.map (fun i => words.getD i { word := [], definition := [] }) ∧
        sel'.length = maxCount ∧
        (∀ i ∈ sel', i < words.length) := by
  intro fuel
  induction fuel with
  | zero =>
      intro t sel res sel' res' hnd hres hlen hbound hstream h
      simp only [drawLoop] at h
      by_cases hdone : maxCount ≤ sel.length
      · rw [if_pos hdone] at h
        obtain ⟨h1, h2⟩ := Prod.mk.injEq .. ▸ Option.some_inj.mp h
        subst h1
        subst h2
        exact ⟨hnd, hres, le_antisymm hlen hdone, hbound⟩
      · rw [if_neg hdone] at h
        cases h
  | succ fuel ih =>
      intro t sel res sel' res' hnd hres hlen hbound hstream h
      simp only [drawLoop] at h
      by_cases hdone : maxCount ≤ sel.length
      · rw [if_pos hdone] at h
        obtain ⟨h1, h2⟩ := Prod.mk.injEq .. ▸ Option.some_inj.mp h
        subst h1
        subst h2
        exact ⟨hnd, hres, le_antisymm hlen hdone, hbound⟩
      · rw [if_neg hdone] at h
        by_cases hmem : stream t ∈ sel
        · rw [if_pos hmem] at h
          exact ih (t + 1) sel res sel' res' hnd hres hlen hbound hstream h
        · rw [if_neg hmem] at h
          refine ih (t + 1) (sel ++ [stream t]) _ sel' res' ?_ ?_ ?_ ?_ hstream h
          · rw [List.nodup_append]
            exact ⟨hnd, List.nodup_singleton _,
              fun a ha hb => hmem ((List.mem_singleton.mp hb) ▸ ha)⟩
          · rw [hres, List.map_append]
            rfl
          · have : sel.length < maxCount := lt_of_not_le hdone
            simpa using this
          · intro i hi
            rcases List.mem_append.mp hi with hi1 | hi2
            · exact hbound i hi1
            · rw [List.mem_singleton.mp hi2]
              exact hstream t

theorem mapSet_fresh {K V : Type} [DecidableEq K] (m : List (K × V)) (k : K) (v : V)
    (h : ∀ p ∈ m, p.1 ≠ k) : mapSet m k v = m ++ [(k, v)] := by
  unfold mapSet
  rw [if_neg]
  intro hany
  obtain ⟨p, hp, hpk⟩ := List.any_eq_true.mp hany
  exact h p hp (of_decide_eq_true hpk)

theorem putAll_fill (cap : Nat) (ps : List (List Char × List ScoredResult)) :
    ∀ c : List (List Char × List ScoredResult),
      c.length + ps.length ≤ cap →
      (∀ p ∈ ps, ∀ q ∈ c, p.1 ≠ q.1) →
      (ps.map Prod.fst).Nodup →
      putAll cap c ps = c ++ ps := by
  induction ps with
  | nil =>
      intro c _ _ _
      simp [putAll]
  | cons p rest ih =>
      intro c hlen hfresh hnd
      have hc : cachePut cap c p.1 p.2 = c ++ [p] := by
        unfold cachePut
        rw [if_neg (by simp at hlen ⊢; omega)]
        exact mapSet_fresh c p.1 p.2
          (fun q hq => fun he => hfresh p (List.mem_cons_self p rest) q hq he.symm)
      have hstep : putAll cap c (p :: rest) = putAll cap (c ++ [p]) rest := by
        unfold putAll
        rw [List.foldl_cons, hc]
      rw [hstep, ih (c ++ [p])]
      · rw [List.append_assoc]
        rfl
      · simp at hlen ⊢
        omega
      · intro r hr q hq
        rcases List.mem_append.mp hq with hq1 | hq2
        · exact hfresh r (List.mem_cons_of_mem p hr) q hq1
        · rw [List.mem_singleton.mp hq2]
          rcases List.pairwise_cons.mp hnd with ⟨hp1, -⟩
          exact fun he => hp1 r.1 (List.mem_map.mpr ⟨r, hr, rfl⟩) he.symm
      · exact (List.pairwise_cons.mp hnd).2

theorem putAll_evict (cap : Nat) (p0 : List Char × List ScoredResult)
    (rest : List (List Char × List ScoredResult)) (hcap : 1 ≤ cap)
    (hlen : rest.length = cap) (hnd : ((p0 :: rest).map Prod.fst).Nodup) :
    putAll cap [] (p0 :: rest) = rest := by
  have hne : rest ≠ [] := by
    intro h0
    rw [h0] at hlen
    simp at hlen
    omega
  rcases List.pairwise_cons.mp hnd with ⟨hp0, hndrest⟩
  have hsplit : rest.dropLast ++ [rest.getLast hne] = rest := List.dropLast_append_getLast hne
  have hfrontlen : rest.dropLast.length = cap - 1 := by
    rw [List.length_dropLast, hlen]
  have h1 : cachePut cap [] p0.1 p0.2 = [p0] := by
    unfold cachePut
    rw [if_neg (by simp; omega)]
    exact mapSet_fresh [] p0.1 p0.2 (by simp)
  have hstep1 : putAll cap [] (p0 :: rest) = putAll cap [p0] rest := by
    unfold putAll
    rw [List.foldl_cons, h1]
  have hndkeys : (rest.map Prod.fst).Nodup := hndrest
  have hndfront : (rest.dropLast.map Prod.fst).Nodup := by
    refine List.Nodup.sublist ?_ hndkeys
    exact List.Sublist.map Prod.fst (List.dropLast_sublist rest)
  have hfill : putAll cap [p0] rest.dropLast = [p0] ++ rest.dropLast := by
    refine putAll_fill cap rest.dropLast [p0] ?_ ?_ hndfront
    · simp only [List.length_singleton]
      omega
    · intro p hp q hq
      rw [List.mem_singleton.mp hq]
      have hpmem : p.1 ∈ rest.map Prod.fst :=
        List.mem_map.mpr ⟨p, List.dropLast_subset rest hp, rfl⟩
      exact fun he => hp0 p.1 hpmem he.symm
  have hlast : rest.getLast hne ∈ rest := List.getLast_mem hne
  have hfinal : cachePut cap (p0 :: rest.dropLast) (rest.getLast hne).1 (rest.getLast hne).2
      = rest := by
    unfold cachePut
    rw [if_pos (by simp [hfrontlen]; omega)]
    have hhead : (p0 :: rest.dropLast).head? = some p0 := rfl
    rw [hhead]
    dsimp only
    have herase : (p0 :: rest.dropLast).eraseP (fun q => decide (q.1 = p0.1)) =
        rest.dropLast := by
      rw [List.eraseP_cons_of_pos]
      simp
    rw [herase]
    have hfreshlast : ∀ q ∈ rest.dropLast, q.1 ≠ (rest.getLast hne).1 := by
      intro q hq he
      have hnodup2 : ((rest.dropLast ++ [rest.getLast hne]).map Prod.fst).Nodup := by
        rw [hsplit]
        exact hndkeys
      rw [List.map_append] at hnodup2
      rcases List.nodup_append.mp hnodup2 with ⟨-, -, hdisj⟩
      exact hdisj (List.mem_map.mpr ⟨q, hq, rfl⟩)
        (by simp [he])
    rw [mapSet_fresh _ _ _ hfreshlast]
    calc rest.dropLast ++ [((rest.getLast hne).1, (rest.getLast hne).2)]
        = rest.dropLast ++ [rest.getLast hne] := rfl
      _ = rest := hsplit
  calc putAll cap [] (p0 :: rest)
      = putAll cap [p0] rest := hstep1
    _ = putAll cap [p0] (rest.dropLast ++ [rest.getLast hne]) := by rw [hsplit]
    _ = putAll cap (putAll cap [p0] rest.dropLast) [rest.getLast hne] := by
        unfold putAll
        rw [List.foldl_append]
    _ = putAll cap (p0 :: rest.dropLast) [rest.getLast hne] := by rw [hfill]; rfl
    _ = rest := by
        unfold putAll
        rw [List.foldl_cons, List.foldl_nil]
        exact hfinal

theorem map_getD_range {α : Type} (l : List α) (d : α) :
    (List.range l.length).map (fun i => l.getD i d) = l := by
  induction l with
  | nil => rfl
  | cons x xs ih =>
      rw [List.length_cons, List.range_succ_eq_map, List.map_cons, List.map_map]
      have h2 : List.map ((fun i => (x :: xs).getD i d) ∘ Nat.succ) (List.range xs.length)
          = xs := by
        calc List.map ((fun i => (x :: xs).getD i d) ∘ Nat.succ) (List.range xs.length)
            = List.map (fun i => xs.getD i d) (List.range xs.length) := by
              apply List.map_congr_left
              intro i _
              rfl
          _ = xs := ih
      rw [h2]
      rfl

/-- C1 (as stated) is false: a load that fails with the empty-dataset
`FormatError` does NOT leave the whole store in its previous state.  Loading
`[]` into a store previously loaded with one entry fails, yet mutates the
entries sequence (while `wordIndex` and `sortedWords` keep their old values). -/
theorem claim_C1_counterexample :
    ((loadWords stW (jarr [])).2).isSome = true ∧
    ¬ ((loadWords stW (jarr [])).1.words = stW.words ∧
        (loadWords stW (jarr [])).1.wordIndex = stW.wordIndex ∧
        (loadWords stW (jarr [])).1.sortedWords = stW.sortedWords) := by
  decide

/-- C1, amended: when `Load` fails with a `FormatError`, `exactIndex`
(`wordIndex`), `sortedWords` and `isLoaded` keep their previous values, and
the entries sequence is either unchanged (unsupported dataset shape, which
throws before any mutation) or replaced by the empty sequence (supported
shape whose filtered entry list is empty, which is assigned to `this.words`
before the emptiness check throws). -/
theorem claim_C1 (st : Store) (j : JSON) (msg : String)
    (h : (loadWords st j).2 = some msg) :
    (loadWords st j).1.wordIndex = st.wordIndex ∧
    (loadWords st j).1.sortedWords = st.sortedWords ∧
    (loadWords st j).1.isLoaded = st.isLoaded ∧
    ((loadWords st j).1.words = st.words ∨ (loadWords st j).1.words = []) := by
  have h2 : loadWords st j = ((loadWords st j).1, some msg) := by
    rw [← h]
  exact loadWords_failure h2

theorem claim_C1_witness :
    (loadWords stW (jarr [])).2 = some "No valid word entries found in JSON file." ∧
    ((loadWords stW (jarr [])).1.wordIndex = stW.wordIndex ∧
      (loadWords stW (jarr [])).1.sortedWords = stW.sortedWords ∧
      (loadWords stW (jarr [])).1.isLoaded = stW.isLoaded ∧
      ((loadWords stW (jarr [])).1.words = stW.words ∨
        (loadWords stW (jarr [])).1.words = [])) :=
  ⟨by decide, claim_C1 stW (jarr []) "No valid word entries found in JSON file." (by decide)⟩

/-- C2 (as stated) is false: the Matcher gives an empty query a POSITIVE
score, because in `_fuzzyMatch` every string contains the empty string as a
substring: `Score("a", "")` is 80, not 0. -/
theorem claim_C2_counterexample :
    fuzzyMatch (("a").toList) [] = 80 ∧ ¬ ((80 : ℚ) = 0) := by
  constructor
  · decide
  · norm_num

/-- C2, amended: `Score(x, "")` is 100 for empty `x` (exact-equality tier)
and 80 otherwise (the contains tier, since every string includes the empty
substring); empty queries never reach the Matcher through `Search`, whose
fail-closed guard returns the empty sequence for an empty query. -/
theorem claim_C2 (x : List Char) (st : Store) :
    fuzzyMatch x [] = (if x = [] then 100 else 80) ∧ searchWords st [] = [] := by
  constructor
  · simp only [fuzzyMatch]
    by_cases hx : x = []
    · subst hx
      rfl
    · rw [if_neg hx]
      have h1 : ¬ (lower x = lower []) := by
        intro h0
        exact hx (lower_eq_nil.mp h0)
      rw [if_neg h1]
      have h2 : includesB (lower x) (lower []) = true := by
        simp [includesB, lower]
      rw [if_pos h2]
  · unfold searchWords
    rw [if_pos (Or.inr rfl)]

/-- C3 (as stated) is false: the score is not always an integer.  The
edit-distance tier on `("abc", "abd")` yields `(3 - 1) / 3 * 100 = 200/3`,
which is no integer. -/
theorem claim_C3_counterexample :
    fuzzyMatch (("abc").toList) (("abd").toList) = 200 / 3 ∧
    ¬ ∃ n : ℤ, fuzzyMatch (("abc").toList) (("abd").toList) = (n : ℚ) := by
  have fz : fuzzyMatch (("abc").toList) (("abd").toList) = 200 / 3 := by
    simp [fuzzyMatch, lower, includesB, subseqCheck, editDistance]
    rw [if_neg (by decide)]
    rw [if_pos (by norm_num)]
    norm_num
  refine ⟨fz, ?_⟩
  rintro ⟨n, hn⟩
  rw [fz] at hn
  have h : (200 : ℚ) = n * 3 := (div_eq_iff (by norm_num : (3 : ℚ) ≠ 0)).mp hn
  have h2 : (200 : ℤ) = n * 3 := by exact_mod_cast h
  omega

/-- C3, amended: for every candidate and query, `Score` is a rational number
in the range 0 to 100 inclusive (the exact/contains/subsequence tiers yield
the integers 100, 80, 60 or 0, but the edit-distance similarity tier can
yield non-integral values). -/
theorem claim_C3 (candidate query : List Char) :
    0 ≤ fuzzyMatch candidate query ∧ fuzzyMatch candidate query ≤ 100 :=
  ⟨fuzzyMatch_nonneg candidate query, fuzzyMatch_le_100 candidate query⟩

/-- C4 (as stated) is false: truthiness of `word`/`definition` is checked
BEFORE trimming, so a whitespace-only word survives the filter and is stored
as the empty string after trimming.  Loading
`[{word: "  ", definition: "x"}]` succeeds, but its stored entry violates
the non-empty-after-trimming invariant. -/
theorem claim_C4_counterexample :
    (loadWords emptyStore dsWS).2 = none ∧
    ¬ (∀ e ∈ (loadWords emptyStore dsWS).1.words,
        trim e.word ≠ [] ∧ trim e.definition ≠ []) := by
  decide

/-- C4, amended: after every successful `Load`, every stored entry's `word`
and `definition` are trimmed of surrounding whitespace (each equals its own
trim, having come from a truthy raw value); they may nevertheless be empty
when the raw value was whitespace-only. -/
theorem claim_C4 (st : Store) (j : JSON) (st' : Store)
    (h : loadWords st j = (st', none)) :
    ∀ e ∈ st'.words, trim e.word = e.word ∧ trim e.definition = e.definition := by
  obtain ⟨-, -, -, hok, -⟩ := loadWords_success h
  intro e he
  obtain ⟨⟨a, ha⟩, ⟨b, hb⟩⟩ := parseWords_trimmed hok e he
  constructor
  · rw [ha, trim_trim]
  · rw [hb, trim_trim]

theorem claim_C4_witness :
    loadWords emptyStore dsW = (stW, none) ∧
    ∀ e ∈ stW.words, trim e.word = e.word ∧ trim e.definition = e.definition :=
  ⟨by decide, claim_C4 emptyStore dsW stW (by decide)⟩

/-- C5 (as stated) is false on whitespace-only words: the dataset
`[{word: "  ", definition: "x"}]` loads successfully with the stored word
`""`, whose lowercased form is the empty query, and `Search("")` fails
closed with the empty sequence instead of returning that entry first;
searching the lowercased raw dataset word `"  "` also returns nothing. -/
theorem claim_C5_counterexample :
    (loadWords emptyStore dsWS).2 = none ∧
    (∃ e ∈ (loadWords emptyStore dsWS).1.words, e.word = []) ∧
    searchWords (loadWords emptyStore dsWS).1 (lower []) = [] ∧
    searchWords (loadWords emptyStore dsWS).1 (lower (("  ").toList)) = [] := by
  decide

/-- C5, amended: for every successfully loaded store and every stored word
`w` that is non-empty, `Search(lowercase of w)` returns a non-empty sequence
whose first element is the `exactIndex` entry for `lowercase of w` (the
last-loaded entry with that lowercased word, per `lastMatch`) with score
100. -/
theorem claim_C5 (st : Store) (j : JSON) (st' : Store) (w : List Char)
    (hload : loadWords st j = (st', none))
    (hw : ∃ e ∈ st'.words, e.word = w) (hne : w ≠ []) :
    searchWords st' (lower w) ≠ [] ∧
    ∃ e i, lastMatch (lower w) st'.words.enum = some (e, i) ∧
      (searchWords st' (lower w)).head? = some (mkResult e 100) := by
  obtain ⟨hloaded, hwi, -, -, -⟩ := loadWords_success hload
  obtain ⟨e0, he0, he0w⟩ := hw
  have hmem : ∃ p ∈ st'.words.enum, lower p.2.word = lower w := by
    have hm : e0 ∈ st'.words.enum.map Prod.snd := by
      rw [List.enum_map_snd]
      exact he0
    obtain ⟨p, hp, hpe⟩ := List.mem_map.mp hm
    exact ⟨p, hp, by rw [hpe, he0w]⟩
  obtain ⟨r, hr⟩ := lastMatch_of_mem hmem
  obtain ⟨e, i⟩ := r
  have hkey : lower (lower w) = lower w := lower_lower w
  have hget : mapGet st'.wordIndex (lower (lower w)) = some (e, i) := by
    rw [hkey, hwi, mapGet_buildWordIndex, hr]
  have hq : lower w ≠ [] := fun h0 => hne (lower_eq_nil.mp h0)
  rw [searchWords_eq_of_ready hloaded hq]
  obtain ⟨rest, hcol, hrest⟩ := collectResults_decomp st' (lower w)
  have hexact : exactPart st' (lower (lower w)) = [mkResult e 100] := by
    unfold exactPart
    rw [hget]
  rw [hexact] at hcol
  have hrlt : ∀ x ∈ rest, x.score < 100 := by
    intro x hxm
    rcases hrest x hxm with h90 | ⟨e2, hne2, hxe2⟩
    · rcases h90 with h | h
      · rw [h]
        norm_num
      · rw [h]
        norm_num
    · rw [hxe2]
      exact fuzzyMatch_lt_100 hne2
  have hsort : stableSortBy scoreGt (collectResults st' (lower w)) =
      mkResult e 100 :: stableSortBy scoreGt rest := by
    rw [hcol]
    show insertStable scoreGt (mkResult e 100) (stableSortBy scoreGt rest) = _
    refine insertStable_eq_cons _ _ ?_
    intro y hy
    have hym : y ∈ rest := (perm_stableSortBy scoreGt rest).mem_iff.mp hy
    have hlt := hrlt y hym
    intro habs
    simp only [mkResult] at habs
    exact absurd (lt_trans habs hlt) (lt_irrefl _)
  have htake : (stableSortBy scoreGt (collectResults st' (lower w))).take 1000 =
      mkResult e 100 :: (stableSortBy scoreGt rest).take 999 := by
    rw [hsort, show (1000 : Nat) = 999 + 1 from rfl, List.take_succ_cons]
  rw [htake]
  refine ⟨by simp, e, i, hr, rfl⟩

theorem claim_C5_witness :
    loadWords emptyStore dsW = (stW, none) ∧
    (∃ e ∈ stW.words, e.word = ("Ab").toList) ∧ ("Ab").toList ≠ [] ∧
    (searchWords stW (lower (("Ab").toList)) ≠ [] ∧
      ∃ e i, lastMatch (lower (("Ab").toList)) stW.words.enum = some (e, i) ∧
        (searchWords stW (lower (("Ab").toList))).head? = some (mkResult e 100)) :=
  ⟨by decide, by decide, by decide,
    claim_C5 emptyStore dsW stW (("Ab").toList) (by decide) (by decide) (by decide)⟩

/-- C9: `Search` and `RandomEntry` are total functions of the model (they
never throw); `Search` returns the empty sequence whenever the store is not
loaded or the query is empty, and `RandomEntry` returns `none` whenever the
store is not loaded or holds no words. -/
theorem claim_C9 (st : Store) (q : List Char) (idx : Nat) :
    (st.isLoaded = false ∨ q = [] → searchWords st q = []) ∧
    (st.isLoaded = false ∨ st.words = [] → getRandomWord st idx = none) := by
  constructor
  · intro h
    unfold searchWords
    rw [if_pos h]
  · intro h
    unfold getRandomWord
    rw [if_pos]
    rcases h with h | h
    · exact Or.inl h
    · refine Or.inr ?_
      rw [h]
      rfl

theorem claim_C9_witness :
    searchWords emptyStore (("a").toList) = [] ∧ getRandomWord emptyStore 0 = none :=
  ⟨(claim_C9 emptyStore (("a").toList) 0).1 (Or.inl rfl),
    (claim_C9 emptyStore (("a").toList) 0).2 (Or.inl rfl)⟩

/-- C6: for every store and query, the sequence returned by `Search` is
sorted in descending order of score, within each score level it is a prefix
of the collected (pre-sort) results filtered to that score — i.e. ties keep
the relative order in which results were collected, truncated only by the
cap — and its length is at most 1000. -/
theorem claim_C6 (st : Store) (q : List Char) :
    (searchWords st q).length ≤ 1000 ∧
    (searchWords st q).Pairwise (fun a b => b.score ≤ a.score) ∧
    ∀ s : ℚ, (searchWords st q).filter (fun r => decide (r.score = s)) <+:
      (collectResults st q).filter (fun r => decide (r.score = s)) := by
  by_cases hg : st.isLoaded = false ∨ q = []
  · unfold searchWords
    rw [if_pos hg]
    exact ⟨by norm_num, List.Pairwise.nil, fun s => List.nil_prefix⟩
  · obtain ⟨hA, hB⟩ := not_or.mp hg
    have h1 : st.isLoaded = true := by
      cases hb : st.isLoaded
      · exact absurd hb hA
      · rfl
    rw [searchWords_eq_of_ready h1 hB]
    refine ⟨?_, ?_, ?_⟩
    · exact List.length_take_le 1000 _
    · exact List.Pairwise.sublist (List.take_sublist 1000 _) (sorted_stableSortBy _)
    · intro s
      have h2 := List.IsPrefix.filter (fun r => decide (r.score = s))
        (List.take_prefix 1000 (stableSortBy scoreGt (collectResults st q)))
      rw [stableSortBy_filter_score] at h2
      exact h2

/-- C7: whenever the `getMultipleRandomWords` loop terminates (some fuel
suffices) on a loaded store with in-range random draws, it returns exactly
`min(count, N)` entries drawn at pairwise-distinct indices; for `count = 0`
it returns the empty sequence; and for `count ≥ N` it returns every entry
exactly once (a permutation of the store's entries). -/
theorem claim_C7 (st : Store) (stream : Nat → Nat) (count fuel : Nat)
    (sel : List Nat) (res : List Entry)
    (hloaded : st.isLoaded = true)
    (hstream : ∀ t, stream t < st.words.length)
    (h : getMultipleRandomWords st stream count fuel = some (sel, res)) :
    res.length = min count st.words.length ∧
    sel.Nodup ∧
    res = sel.map (fun i => st.words.getD i { word := [], definition := [] }) ∧
    (count = 0 → res = []) ∧
    (st.words.length ≤ count → res.Perm st.words) := by
  unfold getMultipleRandomWords at h
  by_cases hg : st.isLoaded = false ∨ st.words.length = 0
  · have hlen0 : st.words.length = 0 := by
      rcases hg with h0 | h0
      · rw [hloaded] at h0
        cases h0
      · exact h0
    rw [if_pos hg] at h
    obtain ⟨h1, h2⟩ := Prod.mk.injEq .. ▸ Option.some_inj.mp h
    subst h1
    subst h2
    refine ⟨by rw [hlen0]; simp, List.nodup_nil, rfl, fun _ => rfl, fun hc => ?_⟩
    rw [List.length_eq_zero.mp hlen0]
  · rw [if_neg hg] at h
    obtain ⟨hnd, hres, hlen, hbound⟩ :=
      drawLoop_spec st.words stream (min count st.words.length) fuel 0 [] [] sel res
        List.nodup_nil rfl (by simp) (by simp) hstream h
    refine ⟨?_, hnd, hres, ?_, ?_⟩
    · rw [hres, List.length_map, hlen]
    · intro hc
      subst hc
      have : res.length = 0 := by
        rw [hres, List.length_map, hlen]
        simp
      exact List.length_eq_zero.mp this
    · intro hcount
      have hminlen : min count st.words.length = st.words.length := min_eq_right hcount
      have hsub : sel ⊆ List.range st.words.length :=
        fun i hi => List.mem_range.mpr (hbound i hi)
      have hperm : sel.Perm (List.range st.words.length) :=
        (List.Nodup.subperm hnd hsub).perm_of_length_le
          (by rw [List.length_range, hlen, hminlen])
      have hmapped := hperm.map (fun i => st.words.getD i { word := [], definition := [] })
      rw [← hres, map_getD_range] at hmapped
      exact hmapped

theorem claim_C7_witness :
    ([({ word := ("Ab").toList, definition := ("a thing").toList } : Entry)]).length =
      min 5 stW.words.length ∧
    ([0] : List Nat).Nodup ∧
    [({ word := ("Ab").toList, definition := ("a thing").toList } : Entry)] =
      ([0] : List Nat).map (fun i => stW.words.getD i { word := [], definition := [] }) ∧
    ((5 : Nat) = 0 →
      [({ word := ("Ab").toList, definition := ("a thing").toList } : Entry)] = []) ∧
    (stW.words.length ≤ 5 →
      ([({ word := ("Ab").toList, definition := ("a thing").toList } : Entry)]).Perm
        stW.words) :=
  claim_C7 stW (fun _ => 0) 5 10 [0]
    [{ word := ("Ab").toList, definition := ("a thing").toList }]
    (by decide)
    (fun t => by
      show 0 < stW.words.length
      decide)
    (by decide)

/-- C8: inserting `cap + 1` distinct query keys into an initially empty
cache of capacity `cap` evicts exactly the first-inserted key and no other:
the final cache holds precisely the last `cap` insertions in order, a `Get`
for the first key misses, and a `Get` for each of the other `cap` keys hits
with its stored results. -/
theorem claim_C8 (cap : Nat) (p0 : List Char × List ScoredResult)
    (rest : List (List Char × List ScoredResult)) (hcap : 1 ≤ cap)
    (hlen : rest.length = cap) (hnd : ((p0 :: rest).map Prod.fst).Nodup) :
    putAll cap [] (p0 :: rest) = rest ∧
    cacheGet (putAll cap [] (p0 :: rest)) p0.1 = none ∧
    ∀ p ∈ rest, cacheGet (putAll cap [] (p0 :: rest)) p.1 = some p.2 := by
  have hput := putAll_evict cap p0 rest hcap hlen hnd
  rcases List.pairwise_cons.mp hnd with ⟨hp0, hndrest⟩
  refine ⟨hput, ?_, ?_⟩
  · rw [hput]
    unfold cacheGet
    exact mapGet_eq_none rest p0.1
      (fun p hp he => hp0 p.1 (List.mem_map.mpr ⟨p, hp, rfl⟩) he.symm)
  · intro p hp
    rw [hput]
    unfold cacheGet
    exact mapGet_of_nodup rest hndrest p hp

theorem claim_C8_witness :
    cacheRest.length = CACHE_SIZE_LIMIT ∧
    (putAll CACHE_SIZE_LIMIT [] (cacheP0 :: cacheRest) = cacheRest ∧
      cacheGet (putAll CACHE_SIZE_LIMIT [] (cacheP0 :: cacheRest)) cacheP0.1 = none ∧
      ∀ p ∈ cacheRest,
        cacheGet (putAll CACHE_SIZE_LIMIT [] (cacheP0 :: cacheRest)) p.1 = some p.2) :=
  ⟨by decide,
    claim_C8 CACHE_SIZE_LIMIT cacheP0 cacheRest (by decide) (by decide) (by decide)⟩

/-- C10: every entry whose lowercased word equals the lowercased query is
skipped by the linear scan, so for every store and query the returned
sequence holds at most one result of score 100, and any such result is
exactly the one emitted from `exactIndex` (`wordIndex`). -/
theorem claim_C10 (st : Store) (q : List Char) :
    (searchWords st q).countP (fun r => decide (r.score = 100)) ≤ 1 ∧
    ∀ r ∈ searchWords st q, r.score = 100 →
      ∃ p, mapGet st.wordIndex (lower q) = some p ∧ r = mkResult p.1 100 := by
  by_cases hg : st.isLoaded = false ∨ q = []
  · unfold searchWords
    rw [if_pos hg]
    refine ⟨by simp, ?_⟩
    intro r hr
    cases hr
  · obtain ⟨hA, hB⟩ := not_or.mp hg
    have h1 : st.isLoaded = true := by
      cases hb : st.isLoaded
      · exact absurd hb hA
      · rfl
    rw [searchWords_eq_of_ready h1 hB]
    obtain ⟨rest, hcol, hrest⟩ := collectResults_decomp st q
    have hrestlt : ∀ r ∈ rest, r.score < 100 := by
      intro r hrm
      rcases hrest r hrm with h90 | ⟨e2, hne2, hre2⟩
      · rcases h90 with h | h
        · rw [h]
          norm_num
        · rw [h]
          norm_num
      · rw [hre2]
        exact fuzzyMatch_lt_100 hne2
    constructor
    · have hc1 := List.Sublist.countP_le (fun r => decide (r.score = 100))
        (List.take_sublist 1000 (stableSortBy scoreGt (collectResults st q)))
      have hc2 := (perm_stableSortBy scoreGt (collectResults st q)).countP_eq
        (fun r => decide (r.score = 100))
      have hc3 : (collectResults st q).countP (fun r => decide (r.score = 100)) ≤ 1 := by
        rw [hcol, List.countP_append]
        have he1 : (exactPart st (lower q)).countP (fun r => decide (r.score = 100)) ≤ 1 := by
          refine le_trans (List.countP_le_length _) ?_
          unfold exactPart
          cases mapGet st.wordIndex (lower q) <;> simp
        have he2 : rest.countP (fun r => decide (r.score = 100)) = 0 := by
          rw [List.countP_eq_zero]
          intro r hrm hscore
          have hlt := hrestlt r hrm
          rw [of_decide_eq_true hscore] at hlt
          exact absurd hlt (lt_irrefl _)
        omega
      omega
    · intro r hr hscore
      have hmem1 : r ∈ stableSortBy scoreGt (collectResults st q) :=
        List.take_subset 1000 _ hr
      have hmem2 : r ∈ collectResults st q :=
        (perm_stableSortBy scoreGt (collectResults st q)).mem_iff.mp hmem1
      rw [hcol] at hmem2
      rcases List.mem_append.mp hmem2 with hex | hrm
      · obtain ⟨-, p, hget, hrp⟩ := exactPart_spec st (lower q) r hex
        exact ⟨p, hget, hrp⟩
      · exfalso
        have hlt := hrestlt r hrm
        rw [hscore] at hlt
        exact absurd hlt (lt_irrefl _)

theorem claim_C10_witness :
    (searchWords stW (("ab").toList)).countP (fun r => decide (r.score = 100)) ≤ 1 ∧
    mkResult { word := ("Ab").toList, definition := ("a thing").toList } 100 ∈
      searchWords stW (("ab").toList) ∧
    ∃ p, mapGet stW.wordIndex (lower (("ab").toList)) = some p ∧
      mkResult { word := ("Ab").toList, definition := ("a thing").toList } 100 =
        mkResult p.1 100 :=
  ⟨(claim_C10 stW (("ab").toList)).1, by decide,
    (claim_C10 stW (("ab").toList)).2 _ (by decide) (by decide)⟩
